import Mathlib

/-!
Verification of the tradeflight animation-to-video core
(`src/components/ReusableCanvas.tsx`).

The source is a TypeScript canvas component.  Its numeric computations are
modelled over `ℚ` (and over `ℝ` where `Math.sqrt` appears); quantities that
only the browser can produce (text metrics from `ctx.measureText`, the
natural size of a loaded image, clock readings from `performance.now`,
success or failure of media/ffmpeg calls) are inputs of the corresponding
definitions.
-/

/-- A chart point, from the source's `Point` interface
`{ value: number, time: "HH:MM" }`; the time string is kept as its parsed
hour/minute pair (the source parses it with `time.split(":").map(Number)`). -/
structure Pt where
  value : ℚ
  hh : ℕ
  mm : ℕ
deriving DecidableEq

/-- Minutes since midnight, as computed in `recordAnimation`:
`const [h, m] = p.time.split(":"); return h * 60 + m`. -/
def timeMinutes (p : Pt) : ℚ := ((p.hh * 60 + p.mm : ℕ) : ℚ)

/-- The chart's drawable rectangle, produced by the padding pass of
`recordAnimation` (`chartLeft`, `chartTop`, `graphWidth = chartRight -
chartLeft`, `graphHeight = chartBottom - chartTop`).  The padding arithmetic
depends on font metrics and watermark image sizes, so the resulting four
numbers are taken as inputs here. -/
structure ChartGeom where
  chartLeft : ℚ
  chartTop : ℚ
  graphWidth : ℚ
  graphHeight : ℚ
deriving DecidableEq

/-- A laid-out point: the `{x, y, value, time}` record built by
`recordAnimation`'s `calculatedPoints` map (the formatted time label is
omitted; no verified property consumes it). -/
structure CalcPoint where
  x : ℚ
  y : ℚ
  value : ℚ
deriving DecidableEq

/-- JavaScript's `d || 1` fallback applied to an interpolation denominator:
`0` (the only falsy rational) falls back to `1`. -/
def orOne (q : ℚ) : ℚ := if q = 0 then 1 else q

/-- `Math.min(...)` over a list, as used for `minTime`/`minValue`.  The
source never applies it to an empty list (points has length ≥ 1); the `[]`
case returns `0` and is unreachable in every verified statement. -/
def listMin : List ℚ → ℚ
  | [] => 0
  | x :: xs => xs.foldl min x

/-- `Math.max(...)` over a list, as used for `maxTime`/`maxValue`. -/
def listMax : List ℚ → ℚ
  | [] => 0
  | x :: xs => xs.foldl max x

/-- One point of the layout map in `recordAnimation`:
`x = chartLeft + ((times[i] - minTime) / (maxTime - minTime || 1)) * graphWidth`,
`y = chartTop + graphHeight - ((value - minValue) / (maxValue - minValue || 1)) * graphHeight`. -/
def calcPoint (g : ChartGeom) (minT maxT minV maxV : ℚ) (p : Pt) : CalcPoint :=
  { x := g.chartLeft + ((timeMinutes p - minT) / orOne (maxT - minT)) * g.graphWidth
    y := g.chartTop + g.graphHeight -
      ((p.value - minV) / orOne (maxV - minV)) * g.graphHeight
    value := p.value }

/-- The `calculatedPoints` array of `recordAnimation`. -/
def calculatedPoints (g : ChartGeom) (pts : List Pt) : List CalcPoint :=
  pts.map (calcPoint g
    (listMin (pts.map timeMinutes)) (listMax (pts.map timeMinutes))
    (listMin (pts.map Pt.value)) (listMax (pts.map Pt.value)))

/-- Stroke color chosen for one path segment in `animate`:
`end.value >= start.value ? "#16a34a" : "#dc2626"`. -/
def strokeColorOf (startP endP : CalcPoint) : String :=
  if endP.value ≥ startP.value then "#16a34a" else "#dc2626"

/-- The per-segment stroke colors of the path, in segment order. -/
def segmentColors (cps : List CalcPoint) : List String :=
  List.zipWith strokeColorOf cps cps.tail

/-- `const animationDuration = duration * 1000` in `recordAnimation`. -/
def animationDurationMs (duration : ℚ) : ℚ := duration * 1000

/-- The per-tick progress of `animate`:
`Math.min((now - startTime) / animationDuration, 1)`. -/
def progressAt (startTime animDur now : ℚ) : ℚ :=
  min ((now - startTime) / animDur) 1

/-- Modelled from the spec: `progress = clamp((now - start) / (duration *
1000), 0, 1)` — the spec's claimed progress formula, clamped on BOTH sides,
for comparison with the source's `progressAt`. -/
def clampedProgressSpec (startTime animDur now : ℚ) : ℚ :=
  max 0 (min ((now - startTime) / animDur) 1)

-- ---------------------------------------------------------------------------
-- helper lemmas for the degenerate layout (C3)
-- ---------------------------------------------------------------------------

lemma foldl_min_const {v : ℚ} : ∀ (xs : List ℚ), (∀ x ∈ xs, x = v) →
    xs.foldl min v = v := by
  intro xs
  induction xs with
  | nil => intro _; rfl
  | cons a t ih =>
    intro h
    have ha : a = v := h a (by simp)
    simp only [List.foldl_cons, ha, min_self]
    exact ih fun x hx => h x (by simp [hx])

lemma foldl_max_const {v : ℚ} : ∀ (xs : List ℚ), (∀ x ∈ xs, x = v) →
    xs.foldl max v = v := by
  intro xs
  induction xs with
  | nil => intro _; rfl
  | cons a t ih =>
    intro h
    have ha : a = v := h a (by simp)
    simp only [List.foldl_cons, ha, max_self]
    exact ih fun x hx => h x (by simp [hx])

lemma listMin_const {v : ℚ} {l : List ℚ} (hne : l ≠ [])
    (h : ∀ x ∈ l, x = v) : listMin l = v := by
  cases l with
  | nil => exact absurd rfl hne
  | cons a t =>
    have ha : a = v := h a (by simp)
    simp only [listMin, ha]
    exact foldl_min_const t fun x hx => h x (by simp [hx])

lemma listMax_const {v : ℚ} {l : List ℚ} (hne : l ≠ [])
    (h : ∀ x ∈ l, x = v) : listMax l = v := by
  cases l with
  | nil => exact absurd rfl hne
  | cons a t =>
    have ha : a = v := h a (by simp)
    simp only [listMax, ha]
    exact foldl_max_const t fun x hx => h x (by simp [hx])

/-- C3.  If every point carries the same value, the value-axis denominator
falls back to `1` and every laid-out point gets the identical y-coordinate
`chartTop + graphHeight`; if every point carries the same time, the
time-axis denominator falls back to `1` and every laid-out point gets the
identical x-coordinate `chartLeft`.  In both degenerate cases the
coordinate divisions are by the fallback `1`, hence well-defined. -/
theorem degenerate_layout_constant_axis (g : ChartGeom) (pts : List Pt) :
    (∀ v : ℚ, (∀ p ∈ pts, p.value = v) →
      orOne (listMax (pts.map Pt.value) - listMin (pts.map Pt.value)) = 1 ∧
      ∀ q ∈ calculatedPoints g pts, q.y = g.chartTop + g.graphHeight) ∧
    (∀ tv : ℚ, (∀ p ∈ pts, timeMinutes p = tv) →
      orOne (listMax (pts.map timeMinutes) - listMin (pts.map timeMinutes)) = 1 ∧
      ∀ q ∈ calculatedPoints g pts, q.x = g.chartLeft) := by
  constructor
  · intro v hv
    rcases List.eq_nil_or_concat pts with hnil | _
    · subst hnil
      constructor
      · simp [listMin, listMax, orOne]
      · intro q hq; simp [calculatedPoints] at hq
    have hne : pts.map Pt.value ≠ [] := by
      intro hc
      rcases pts with _ | ⟨p, t⟩
      · simp_all
      · simp at hc
    have hall : ∀ x ∈ pts.map Pt.value, x = v := by
      intro x hx
      rcases List.mem_map.mp hx with ⟨p, hp, rfl⟩
      exact hv p hp
    have hmin : listMin (pts.map Pt.value) = v := listMin_const hne hall
    have hmax : listMax (pts.map Pt.value) = v := listMax_const hne hall
    refine ⟨by simp [hmin, hmax, orOne], ?_⟩
    intro q hq
    rcases List.mem_map.mp hq with ⟨p, hp, rfl⟩
    have hpv : p.value = v := hv p hp
    simp [calcPoint, hmin, hpv]
  · intro tv hv
    rcases List.eq_nil_or_concat pts with hnil | _
    · subst hnil
      constructor
      · simp [listMin, listMax, orOne]
      · intro q hq; simp [calculatedPoints] at hq
    have hne : pts.map timeMinutes ≠ [] := by
      intro hc
      rcases pts with _ | ⟨p, t⟩
      · simp_all
      · simp at hc
    have hall : ∀ x ∈ pts.map timeMinutes, x = tv := by
      intro x hx
      rcases List.mem_map.mp hx with ⟨p, hp, rfl⟩
      exact hv p hp
    have hmin : listMin (pts.map timeMinutes) = tv := listMin_const hne hall
    have hmax : listMax (pts.map timeMinutes) = tv := listMax_const hne hall
    refine ⟨by simp [hmin, hmax, orOne], ?_⟩
    intro q hq
    rcases List.mem_map.mp hq with ⟨p, hp, rfl⟩
    have hpv : timeMinutes p = tv := hv p hp
    simp [calcPoint, hmin, hpv]

/-- Witness for C3 at a concrete degenerate input. -/
theorem degenerate_layout_constant_axis_witness :
    (∀ p ∈ [Pt.mk 5 9 0, Pt.mk 5 10 0], p.value = 5) ∧
    (orOne (listMax ([Pt.mk 5 9 0, Pt.mk 5 10 0].map Pt.value) -
        listMin ([Pt.mk 5 9 0, Pt.mk 5 10 0].map Pt.value)) = 1 ∧
      ∀ q ∈ calculatedPoints (ChartGeom.mk 0 0 100 100) [Pt.mk 5 9 0, Pt.mk 5 10 0],
        q.y = (0 : ℚ) + 100) :=
  ⟨by decide,
    (degenerate_layout_constant_axis (ChartGeom.mk 0 0 100 100)
      [Pt.mk 5 9 0, Pt.mk 5 10 0]).1 5 (by decide)⟩

-- ---------------------------------------------------------------------------
-- indexing a zipped-with-tail list (segments / segment colors)
-- ---------------------------------------------------------------------------

lemma getD_zipWith_tail {α β : Type} (f : α → α → β) (da : α) (db : β) :
    ∀ (l : List α) (i : ℕ), i + 1 < l.length →
      (List.zipWith f l l.tail).getD i db = f (l.getD i da) (l.getD (i + 1) da) := by
  intro l
  induction l with
  | nil => intro i hi; simp at hi
  | cons a t ih =>
    intro i hi
    cases t with
    | nil => simp at hi
    | cons b t' =>
      cases i with
      | zero => simp
      | succ j =>
        have hj : j + 1 < (b :: t').length := by
          simpa [Nat.succ_lt_succ_iff] using hi
        simpa using ih j hj

/-- C4.  For each consecutive segment of the path, the stroke color picked
by `animate` is the increase color `#16a34a` when the end point's value is
greater than or equal to the start point's value, and the decrease color
`#dc2626` when it is strictly less; in particular a flat segment (equal
values) is stroked in the increase color. -/
theorem segment_color_rule (g : ChartGeom) (pts : List Pt) (i : ℕ)
    (hi : i + 1 < (calculatedPoints g pts).length) :
    (((calculatedPoints g pts).getD (i + 1) (CalcPoint.mk 0 0 0)).value ≥
        ((calculatedPoints g pts).getD i (CalcPoint.mk 0 0 0)).value →
      (segmentColors (calculatedPoints g pts)).getD i "" = "#16a34a") ∧
    (((calculatedPoints g pts).getD (i + 1) (CalcPoint.mk 0 0 0)).value <
        ((calculatedPoints g pts).getD i (CalcPoint.mk 0 0 0)).value →
      (segmentColors (calculatedPoints g pts)).getD i "" = "#dc2626") := by
  have hz := getD_zipWith_tail strokeColorOf (CalcPoint.mk 0 0 0) ""
    (calculatedPoints g pts) i hi
  unfold segmentColors
  rw [hz]
  unfold strokeColorOf
  constructor
  · intro h; rw [if_pos h]
  · intro h; rw [if_neg (not_le.mpr h)]

/-- Witness for C4: concrete two-point path whose single segment rises, so
it is stroked green. -/
theorem segment_color_rule_witness :
    (0 + 1 < (calculatedPoints (ChartGeom.mk 0 0 100 100)
        [Pt.mk 10 9 0, Pt.mk 15 9 5]).length ∧
      ((calculatedPoints (ChartGeom.mk 0 0 100 100)
        [Pt.mk 10 9 0, Pt.mk 15 9 5]).getD (0 + 1) (CalcPoint.mk 0 0 0)).value ≥
        ((calculatedPoints (ChartGeom.mk 0 0 100 100)
          [Pt.mk 10 9 0, Pt.mk 15 9 5]).getD 0 (CalcPoint.mk 0 0 0)).value) ∧
    (segmentColors (calculatedPoints (ChartGeom.mk 0 0 100 100)
      [Pt.mk 10 9 0, Pt.mk 15 9 5])).getD 0 "" = "#16a34a" :=
  ⟨⟨by decide, by decide⟩,
    (segment_color_rule (ChartGeom.mk 0 0 100 100)
      [Pt.mk 10 9 0, Pt.mk 15 9 5] 0 (by decide)).1 (by decide)⟩

/-- C5 counterexample.  `animate` computes
`Math.min((now - startTime) / animationDuration, 1)` with no lower clamp:
at `startTime = 1000`, `duration = 1`, clock reading `now = 0`, the computed
progress is `-1`, which is negative and differs from the spec's two-sided
clamp (which gives `0`). -/
theorem progress_negative_counterexample :
    progressAt 1000 (animationDurationMs 1) 0 = -1 ∧
    clampedProgressSpec 1000 (animationDurationMs 1) 0 = 0 ∧
    progressAt 1000 (animationDurationMs 1) 0 < 0 := by
  refine ⟨?_, ?_, ?_⟩ <;>
    norm_num [progressAt, clampedProgressSpec, animationDurationMs, min_def, max_def]

/-- C5 (amended).  The progress computed by `animate` is the elapsed-time
ratio clamped above at `1` only: it never exceeds `1`, and whenever the
clock reading is at or after the start time it agrees with the spec's
two-sided clamp and is nonnegative; clock readings earlier than start give
a negative value (see the counterexample). -/
theorem progress_min_one_only (startTime duration now : ℚ) (hd : 0 < duration) :
    progressAt startTime (animationDurationMs duration) now ≤ 1 ∧
    (startTime ≤ now →
      progressAt startTime (animationDurationMs duration) now =
        clampedProgressSpec startTime (animationDurationMs duration) now ∧
      0 ≤ progressAt startTime (animationDurationMs duration) now) := by
  have hpos : (0 : ℚ) < animationDurationMs duration := by
    unfold animationDurationMs
    nlinarith
  refine ⟨min_le_right _ _, ?_⟩
  intro hle
  have hnn : 0 ≤ (now - startTime) / animationDurationMs duration :=
    div_nonneg (by linarith) (le_of_lt hpos)
  have h0 : 0 ≤ progressAt startTime (animationDurationMs duration) now :=
    le_min hnn zero_le_one
  refine ⟨?_, h0⟩
  unfold progressAt clampedProgressSpec
  exact (max_eq_right h0).symm

/-- Witness for C5's amended theorem at a concrete tick. -/
theorem progress_min_one_only_witness :
    ((0 : ℚ) < 1 ∧ (0 : ℚ) ≤ 500) ∧
    (progressAt 0 (animationDurationMs 1) 500 ≤ 1 ∧
      (progressAt 0 (animationDurationMs 1) 500 =
        clampedProgressSpec 0 (animationDurationMs 1) 500 ∧
      0 ≤ progressAt 0 (animationDurationMs 1) 500)) :=
  ⟨⟨by decide, by decide⟩,
    ⟨(progress_min_one_only 0 1 500 (by decide)).1,
      (progress_min_one_only 0 1 500 (by decide)).2 (by decide)⟩⟩

-- ---------------------------------------------------------------------------
-- filename generation (generateFileName)
-- ---------------------------------------------------------------------------

/-- `String(n).padStart(2, "0")` for the date fields. -/
def pad2 (n : ℕ) : String := if n < 10 then "0" ++ toString n else toString n

/-- The clock fields read from `new Date()`; `monthIndex` is the 0-based
`getMonth()` value. -/
structure JsDate where
  fullYear : ℕ
  monthIndex : ℕ
  dayOfMonth : ℕ
  hours : ℕ
  minutes : ℕ
  seconds : ℕ
deriving DecidableEq

/-- The timestamp built in `generateFileName`:
`YYYY-MM-DD_HH-mm-ss`, with `getMonth() + 1` and two-digit padding on all
fields except the year. -/
def fileTimestamp (d : JsDate) : String :=
  toString d.fullYear ++ "-" ++ pad2 (d.monthIndex + 1) ++ "-" ++
    pad2 d.dayOfMonth ++ "_" ++ pad2 d.hours ++ "-" ++ pad2 d.minutes ++
    "-" ++ pad2 d.seconds

/-- Characters matched by the regex class `[a-z0-9]` under the `i` flag,
i.e. the characters NOT replaced by `[^a-z0-9]+/gi`. -/
def isFileAlnum (c : Char) : Bool :=
  (('a' ≤ c && c ≤ 'z') || ('A' ≤ c && c ≤ 'Z') || ('0' ≤ c && c ≤ '9'))

/-- `replace(/[^a-z0-9]+/gi, "-")`: each maximal run of non-alphanumeric
characters becomes a single hyphen.  The flag records whether the scan is
currently inside a run whose hyphen has already been emitted. -/
def collapseAux : Bool → List Char → List Char
  | _, [] => []
  | inRun, c :: cs =>
    if isFileAlnum c then c :: collapseAux false cs
    else if inRun then collapseAux true cs
    else '-' :: collapseAux true cs

/-- The whole-run replacement applied to a character list (scan starts
outside any run). -/
def collapseNonAlnum (l : List Char) : List Char := collapseAux false l

/-- `replace(/^-+|-+$/g, "")`: strip the leading and the trailing hyphen
run. -/
def trimHyphens (l : List Char) : List Char :=
  ((l.dropWhile (fun c => c == '-')).reverse.dropWhile (fun c => c == '-')).reverse

/-- The title sanitization of `generateFileName`:
`title ? title.toLowerCase().replace(/[^a-z0-9]+/gi, "-").replace(/^-+|-+$/g, "") : "tradeflight"`
(an absent or empty — hence falsy — title yields the default). -/
def sanitizeTitle (title : Option String) : String :=
  match title with
  | none => "tradeflight"
  | some t =>
    if t.isEmpty then "tradeflight"
    else String.mk (trimHyphens (collapseNonAlnum (t.data.map Char.toLower)))

/-- `generateFileName` of the source component. -/
def generateFileName (d : JsDate) (title : Option String) (ext : String) : String :=
  sanitizeTitle title ++ "-" ++ fileTimestamp d ++ "." ++ ext

/-- C9.  `generateFileName` is a pure function of the clock reading and the
title, producing `{sanitized-title}-{YYYY-MM-DD_HH-mm-ss}.{ext}`; the
sanitization lowercases, collapses each non-alphanumeric run to one hyphen
and trims boundary hyphens, so "My Trip!" gives prefix "my-trip", and an
empty or absent title gives the default prefix "tradeflight". -/
theorem generateFileName_deterministic_format :
    sanitizeTitle (some "My Trip!") = "my-trip" ∧
    sanitizeTitle none = "tradeflight" ∧
    sanitizeTitle (some "") = "tradeflight" ∧
    sanitizeTitle (some "A__&B") = "a-b" ∧
    (∀ (d : JsDate) (title : Option String) (ext : String),
      generateFileName d title ext =
        sanitizeTitle title ++ "-" ++ fileTimestamp d ++ "." ++ ext) ∧
    generateFileName (JsDate.mk 2026 9 12 3 4 5) (some "My Trip!") "mp4" =
      "my-trip-2026-10-12_03-04-05.mp4" ∧
    generateFileName (JsDate.mk 2026 9 12 3 4 5) none "webm" =
      "tradeflight-2026-10-12_03-04-05.webm" := by
  refine ⟨by decide, by decide, by decide, by decide, fun d title ext => rfl,
    by decide, by decide⟩

-- ---------------------------------------------------------------------------
-- watermark layering in animate
-- ---------------------------------------------------------------------------

/-- The six watermark anchor positions. -/
inductive WmPosition
  | topLeft
  | topCenter
  | topRight
  | bottomLeft
  | bottomCenter
  | bottomRight
deriving DecidableEq, Fintype

/-- `watermark.position.startsWith("top")`. -/
def startsWithTop : WmPosition → Bool
  | WmPosition.topLeft => true
  | WmPosition.topCenter => true
  | WmPosition.topRight => true
  | _ => false

/-- `watermark.position.startsWith("bottom")`. -/
def startsWithBottom : WmPosition → Bool
  | WmPosition.bottomLeft => true
  | WmPosition.bottomCenter => true
  | WmPosition.bottomRight => true
  | _ => false

/-- `watermark.type`. -/
inductive WmType
  | image
  | text
deriving DecidableEq, Fintype

/-- The watermark state seen by one frame of `animate`: the configuration
flags plus whether the image asset is loaded (`watermarkImageRef.current`
non-null) and whether a text string is present (`watermark.text` truthy). -/
structure Wm where
  enabled : Bool
  type : WmType
  position : WmPosition
  imageLoaded : Bool
  hasText : Bool
deriving DecidableEq, Fintype

/-- Whether one call of `drawWatermark()` paints anything: it requires
`watermark.enabled`, then paints the image when `type === "image"` and the
image ref is set, or the text when `type === "text"` and text is present. -/
def drawWatermarkDraws (w : Wm) : Bool :=
  w.enabled && ((w.type == WmType.image && w.imageLoaded) ||
    (w.type == WmType.text && w.hasText))

/-- Whether the first (bottom-most) layer of `animate` paints the
watermark: `if (watermark?.enabled && watermark.position.startsWith("top"))
drawWatermark()`. -/
def firstLayerDraws (w : Wm) : Bool :=
  w.enabled && startsWithTop w.position && drawWatermarkDraws w

/-- How many watermark paints the final (topmost) layer of `animate`
performs: inside `if (watermark?.enabled)`, an inline image draw guarded
only by `type === "image" && watermarkImageRef.current` (no position
check), followed by `if (watermark?.enabled &&
watermark.position.startsWith("bottom")) drawWatermark()`. -/
def finalLayerDrawCount (w : Wm) : ℕ :=
  if w.enabled then
    (if w.type == WmType.image && w.imageLoaded then 1 else 0) +
      (if w.enabled && startsWithBottom w.position then
        (if drawWatermarkDraws w then 1 else 0) else 0)
  else 0

/-- C7 counterexample.  An enabled image watermark anchored top-left with
its image loaded IS painted in the final layer (the inline image draw has
no position check), refuting the claim that the final layer paints the
watermark exactly when it is bottom-anchored and that a top-anchored
watermark is never painted there. -/
theorem watermark_top_drawn_in_final_layer :
    startsWithTop (Wm.mk true WmType.image WmPosition.topLeft true false).position = true ∧
    (Wm.mk true WmType.image WmPosition.topLeft true false).enabled = true ∧
    0 < finalLayerDrawCount (Wm.mk true WmType.image WmPosition.topLeft true false) ∧
    ¬(0 < finalLayerDrawCount (Wm.mk true WmType.image WmPosition.topLeft true false) ↔
      ((Wm.mk true WmType.image WmPosition.topLeft true false).enabled = true ∧
        startsWithBottom (Wm.mk true WmType.image WmPosition.topLeft true false).position = true)) := by
  decide

/-- C7 (amended).  For a text watermark the claimed layering holds: it is
painted first exactly when enabled, top-anchored and textful, painted in
the final layer exactly when enabled, bottom-anchored and textful, and a
top-anchored text watermark is never painted in the final layer.  For an
image watermark with its image loaded, the first layer behaves as claimed,
but the final layer paints every enabled one regardless of position — once
when top-anchored (the inline draw) and twice when bottom-anchored (the
inline draw plus `drawWatermark()`). -/
theorem watermark_layer_order_amended (w : Wm) :
    (w.type = WmType.text →
      ((firstLayerDraws w = true) ↔
        (w.enabled = true ∧ startsWithTop w.position = true ∧ w.hasText = true)) ∧
      ((0 < finalLayerDrawCount w) ↔
        (w.enabled = true ∧ startsWithBottom w.position = true ∧ w.hasText = true)) ∧
      (startsWithTop w.position = true → finalLayerDrawCount w = 0)) ∧
    (w.type = WmType.image ∧ w.imageLoaded = true →
      ((firstLayerDraws w = true) ↔
        (w.enabled = true ∧ startsWithTop w.position = true)) ∧
      finalLayerDrawCount w =
        (if w.enabled then (if startsWithBottom w.position then 2 else 1) else 0)) := by
  revert w
  decide

/-- Witness for C7's amended theorem: an enabled bottom-center text
watermark is painted in the final layer. -/
theorem watermark_layer_order_amended_witness :
    ((Wm.mk true WmType.text WmPosition.bottomCenter false true).type = WmType.text) ∧
    (0 < finalLayerDrawCount (Wm.mk true WmType.text WmPosition.bottomCenter false true)) :=
  ⟨by decide,
    ((watermark_layer_order_amended
        (Wm.mk true WmType.text WmPosition.bottomCenter false true)).1
      (by decide)).2.1.mpr (by decide)⟩

-- ---------------------------------------------------------------------------
-- downloadMp4 error handling
-- ---------------------------------------------------------------------------

/-- The observable events of one `downloadMp4` call: the error toast of the
catch block, the success toast, and the anchor click that starts the MP4
download. -/
inductive Mp4Event
  | toastError
  | toastSuccess
  | downloadClick
deriving DecidableEq

/-- Outcome flags for the awaited stages of `downloadMp4`; each field says
whether that stage's promise resolves (`true`) or rejects (`false`).
`loaded` is `ffmpeg.loaded` on entry; `readIsString` says whether
`readFile` returned a string (the code then throws). -/
structure Mp4Env where
  recordOk : Bool
  loaded : Bool
  loadOk : Bool
  writeInputOk : Bool
  hasAudio : Bool
  writeAudioOk : Bool
  execOk : Bool
  readOk : Bool
  readIsString : Bool
deriving DecidableEq

/-- One awaited stage: a resolving promise is `ok`, a rejecting one is a
thrown error caught by the surrounding `try`. -/
def awaitStage (ok : Bool) : Except Unit Unit :=
  if ok then Except.ok () else Except.error ()

/-- The `try` body of `downloadMp4`: record, lazily load the engine, write
the raw capture, optionally write the audio and run the merge command (or
the video-only command), read the output back, and throw if `readFile`
returned a string. -/
def mp4Pipeline (e : Mp4Env) : Except Unit Unit := do
  awaitStage e.recordOk
  if !e.loaded then
    awaitStage e.loadOk
  awaitStage e.writeInputOk
  if e.hasAudio then
    awaitStage e.writeAudioOk
    awaitStage e.execOk
  else
    awaitStage e.execOk
  awaitStage e.readOk
  if e.readIsString then
    Except.error ()
  else
    Except.ok ()

/-- `downloadMp4` as observed by the user: on any thrown stage the catch
block emits one error toast; on full success the anchor click and then the
success toast happen. -/
def downloadMp4 (e : Mp4Env) : List Mp4Event :=
  match mp4Pipeline e with
  | Except.ok _ => [Mp4Event.downloadClick, Mp4Event.toastSuccess]
  | Except.error _ => [Mp4Event.toastError]

/-- Whether any stage of `downloadMp4` fails, written directly from the
stage flags (independently of the monadic pipeline). -/
def mp4Failure (e : Mp4Env) : Bool :=
  !e.recordOk || (!e.loaded && !e.loadOk) || !e.writeInputOk ||
    (e.hasAudio && !e.writeAudioOk) || !e.execOk || !e.readOk || e.readIsString

/-- C8.  If any stage of `downloadMp4` fails — recording, engine load,
writing the capture or audio, the transcode command, or reading back the
output — the caller observes exactly one failure report and no download
click; the download click happens only when every stage up to and
including the read-back succeeded, and then the success toast follows. -/
theorem downloadMp4_single_failure_no_download (e : Mp4Env) :
    (mp4Failure e = true → downloadMp4 e = [Mp4Event.toastError]) ∧
    (mp4Failure e = false →
      downloadMp4 e = [Mp4Event.downloadClick, Mp4Event.toastSuccess]) ∧
    (Mp4Event.downloadClick ∈ downloadMp4 e →
      e.readOk = true ∧ e.readIsString = false ∧ mp4Failure e = false) := by
  obtain ⟨r, ld, lo, wi, ha, wa, ex, re, rs⟩ := e
  cases r <;> cases ld <;> cases lo <;> cases wi <;> cases ha <;> cases wa <;>
    cases ex <;> cases re <;> cases rs <;> decide

/-- Witness for C8: with a failing transcode stage the user sees exactly
the error toast. -/
theorem downloadMp4_single_failure_no_download_witness :
    (mp4Failure (Mp4Env.mk true true true true false true false true false) = true) ∧
    downloadMp4 (Mp4Env.mk true true true true false true false true false) =
      [Mp4Event.toastError] :=
  ⟨by decide,
    (downloadMp4_single_failure_no_download
      (Mp4Env.mk true true true true false true false true false)).1 (by decide)⟩

-- ---------------------------------------------------------------------------
-- frame ordering and recorder stop (animate's tail)
-- ---------------------------------------------------------------------------

/-- What one frame of `animate` does after drawing:
`if (progress < 1) requestAnimationFrame(animate); else setTimeout(() =>
recorder.stop(), 500);`. -/
inductive FrameAction
  | scheduleNext
  | stopRecorderAfter (delayMs : ℚ)
deriving DecidableEq

/-- The scheduling decision of one frame at a given progress value. -/
def frameAction (p : ℚ) : FrameAction :=
  if p < 1 then FrameAction.scheduleNext else FrameAction.stopRecorderAfter 500

/-- C6.  Along any recording trace — frame `i` drawn at clock reading
`tick i`, strictly increasing, where every non-final frame chose
`scheduleNext` — the progress values are strictly increasing, and
`recorder.stop()` is never issued while progress is below `1`: a stop is
scheduled (after the 500 ms trailing delay) only by a frame whose progress
equals exactly `1`. -/
theorem frames_strictly_increasing_stop_at_one
    (duration startTime : ℚ) (hd : 0 < duration)
    (tick : ℕ → ℚ) (hmono : StrictMono tick) (n : ℕ)
    (htrace : ∀ i, i + 1 < n →
      frameAction (progressAt startTime (animationDurationMs duration) (tick i)) =
        FrameAction.scheduleNext) :
    (∀ i j, i < j → j < n →
      progressAt startTime (animationDurationMs duration) (tick i) <
        progressAt startTime (animationDurationMs duration) (tick j)) ∧
    (∀ i d, frameAction (progressAt startTime (animationDurationMs duration) (tick i)) =
        FrameAction.stopRecorderAfter d →
      progressAt startTime (animationDurationMs duration) (tick i) = 1 ∧ d = 500) := by
  have hD : (0 : ℚ) < animationDurationMs duration := by
    unfold animationDurationMs
    nlinarith
  constructor
  · intro i j hij hjn
    have hlt1 : progressAt startTime (animationDurationMs duration) (tick i) < 1 := by
      have hi1 : i + 1 < n := by omega
      have := htrace i hi1
      unfold frameAction at this
      by_contra hge
      rw [if_neg (by exact fun hc => hge hc)] at this
      exact FrameAction.noConfusion this
    have hratio : progressAt startTime (animationDurationMs duration) (tick i) =
        (tick i - startTime) / animationDurationMs duration := by
      unfold progressAt at hlt1 ⊢
      rcases min_cases ((tick i - startTime) / animationDurationMs duration) (1 : ℚ) with
        ⟨h1, _⟩ | ⟨h1, h2⟩
      · exact h1
      · rw [h1] at hlt1; exact absurd hlt1 (lt_irrefl 1)
    have hrlt : (tick i - startTime) / animationDurationMs duration <
        (tick j - startTime) / animationDurationMs duration := by
      have hticks : tick i < tick j := hmono hij
      exact div_lt_div_of_pos_right (by linarith) hD
    rw [hratio]
    unfold progressAt
    refine lt_min hrlt ?_
    rw [hratio] at hlt1
    exact hlt1
  · intro i d h
    unfold frameAction at h
    by_cases hp : progressAt startTime (animationDurationMs duration) (tick i) < 1
    · rw [if_pos hp] at h
      exact FrameAction.noConfusion h
    · rw [if_neg hp] at h
      have hle : progressAt startTime (animationDurationMs duration) (tick i) ≤ 1 :=
        min_le_right _ _
      have hd500 : d = 500 := by
        cases h
        rfl
      exact ⟨le_antisymm hle (not_lt.mp hp), hd500⟩

/-- Witness for C6: a two-frame trace with 1-second duration and unit
ticks has increasing progress. -/
theorem frames_strictly_increasing_stop_at_one_witness :
    ((0 : ℚ) < 1) ∧
    progressAt 0 (animationDurationMs 1) ((0 : ℕ) : ℚ) <
      progressAt 0 (animationDurationMs 1) ((1 : ℕ) : ℚ) :=
  ⟨by norm_num,
    (frames_strictly_increasing_stop_at_one 1 0 (by norm_num)
        (fun i => (i : ℚ)) Nat.strictMono_cast 2
        (fun i hi => by
          have h0 : i = 0 := by omega
          subst h0
          norm_num [progressAt, animationDurationMs, frameAction, min_def])).1
      0 1 (by norm_num) (by norm_num)⟩

-- ---------------------------------------------------------------------------
-- label collision resolution (animate's label pass)
-- ---------------------------------------------------------------------------

/-- `const spacing = 12` of the label pass. -/
def labelSpacing : ℚ := 12

/-- `const baseOffset = 40` of the label pass. -/
def labelBaseOffset : ℚ := 40

/-- A label bounding box, the `{left, right, top, bottom}` record of
`placedLabels`. -/
structure LBox where
  left : ℚ
  right : ℚ
  top : ℚ
  bottom : ℚ
deriving DecidableEq

/-- The `overlaps` test of the label pass:
`!(a.right <= b.left || a.left >= b.right || a.bottom <= b.top || a.top >= b.bottom)`. -/
def overlaps (a b : LBox) : Prop :=
  ¬(a.right ≤ b.left ∨ a.left ≥ b.right ∨ a.bottom ≤ b.top ∨ a.top ≥ b.bottom)

instance (a b : LBox) : Decidable (overlaps a b) := by
  unfold overlaps
  infer_instance

/-- One iteration of the inner `for (const placed of placedLabels)` loop:
on overlap, the candidate's top jumps to `placed.bottom + spacing` (its
bottom follows at `top + boxHeight`) and `moved` is set. -/
def labelStep (hgt : ℚ) (st : LBox × Bool) (p : LBox) : LBox × Bool :=
  if overlaps st.1 p then
    ({ st.1 with
        top := p.bottom + labelSpacing
        bottom := p.bottom + labelSpacing + hgt }, true)
  else st

/-- One full pass of the inner for-loop over all placed boxes. -/
def passOnce (placed : List LBox) (hgt : ℚ) (b : LBox) (m : Bool) : LBox × Bool :=
  placed.foldl (labelStep hgt) (b, m)

/-- The `while (moved)` loop, fuelled: each iteration resets `moved`,
sweeps all placed boxes, and repeats while a relocation happened.  The
fuel `placed.length + 1` used below is proved sufficient
(`resolveLoop_clean`). -/
def resolveLoop (placed : List LBox) (hgt : ℚ) : ℕ → LBox → LBox
  | 0, b => b
  | fuel + 1, b =>
    if (passOnce placed hgt b false).2 then
      resolveLoop placed hgt fuel (passOnce placed hgt b false).1
    else (passOnce placed hgt b false).1

/-- Whether a placed box can still force the candidate upward-bounded
relocation: its bottom-plus-spacing lies strictly above the candidate's
top. -/
def pendingPred (b p : LBox) : Bool := decide (b.top < p.bottom + labelSpacing)

/-- Number of placed boxes that can still relocate the candidate; the
termination measure of the while-loop. -/
def pendingCount (placed : List LBox) (b : LBox) : ℕ :=
  placed.countP (pendingPred b)

lemma overlaps_top_lt {a p : LBox} (h : overlaps a p) : a.top < p.bottom := by
  unfold overlaps at h
  push_neg at h
  exact h.2.2.2

lemma countP_lt_of_mem {α : Type} {l : List α} {x : α} {P Q : α → Bool}
    (hx : x ∈ l) (himp : ∀ a, Q a = true → P a = true)
    (hP : P x = true) (hQ : Q x = false) :
    l.countP Q < l.countP P := by
  induction l with
  | nil => simp at hx
  | cons a t ih =>
    rw [List.countP_cons, List.countP_cons]
    have hmono : t.countP Q ≤ t.countP P :=
      List.countP_mono_left fun b _ hb => himp b hb
    rcases List.mem_cons.mp hx with rfl | hxt
    · rw [hP, hQ]
      have h := Nat.lt_succ_of_le hmono
      simpa using h
    · have hlt := ih hxt
      have hif : (if Q a = true then 1 else 0) ≤ (if P a = true then 1 else 0) := by
        by_cases hqa : Q a = true
        · rw [if_pos hqa, if_pos (himp a hqa)]
        · rw [if_neg hqa]
          by_cases hpa : P a = true
          · rw [if_pos hpa]
            omega
          · rw [if_neg hpa]
      omega

lemma foldl_labelStep_flag (hgt : ℚ) :
    ∀ (l : List LBox) (st : LBox × Bool), st.2 = true →
      (l.foldl (labelStep hgt) st).2 = true := by
  intro l
  induction l with
  | nil => intro st h; exact h
  | cons p t ih =>
    intro st h
    rw [List.foldl_cons]
    apply ih
    unfold labelStep
    split_ifs
    · rfl
    · exact h

lemma pendingCount_reloc (placed : List LBox) (b p : LBox) (hp : p ∈ placed)
    (hov : overlaps b p) (hgt : ℚ) :
    pendingCount placed
      ({ b with
          top := p.bottom + labelSpacing
          bottom := p.bottom + labelSpacing + hgt } : LBox) <
      pendingCount placed b := by
  have htoplt : b.top < p.bottom + labelSpacing := by
    have := overlaps_top_lt hov
    unfold labelSpacing
    linarith
  unfold pendingCount
  apply countP_lt_of_mem hp
  · intro a ha
    simp only [pendingPred, decide_eq_true_eq] at ha ⊢
    linarith
  · simp only [pendingPred, decide_eq_true_eq]
    exact htoplt
  · simp only [pendingPred, decide_eq_false_iff_not]
    exact lt_irrefl _

lemma foldl_labelStep_main (hgt : ℚ) (placed : List LBox) :
    ∀ (l : List LBox), (∀ x ∈ l, x ∈ placed) → ∀ (b : LBox) (m : Bool),
      l.foldl (labelStep hgt) (b, m) = (b, m) ∨
      ((l.foldl (labelStep hgt) (b, m)).2 = true ∧
        pendingCount placed (l.foldl (labelStep hgt) (b, m)).1 <
          pendingCount placed b) := by
  intro l
  induction l with
  | nil => intro _ b m; left; rfl
  | cons p t ih =>
    intro hl b m
    rw [List.foldl_cons]
    by_cases hov : overlaps b p
    · have hstep : labelStep hgt (b, m) p =
          ({ b with
              top := p.bottom + labelSpacing
              bottom := p.bottom + labelSpacing + hgt }, true) := by
        unfold labelStep
        rw [if_pos hov]
      rw [hstep]
      have hpend := pendingCount_reloc placed b p (hl p (by simp)) hov hgt
      rcases ih (fun x hx => hl x (by simp [hx]))
          ({ b with
              top := p.bottom + labelSpacing
              bottom := p.bottom + labelSpacing + hgt }) true with heq | ⟨hflag, hpend'⟩
      · right
        rw [heq]
        exact ⟨rfl, hpend⟩
      · right
        exact ⟨hflag, lt_trans hpend' hpend⟩
    · have hstep : labelStep hgt (b, m) p = (b, m) := by
        unfold labelStep
        rw [if_neg hov]
      rw [hstep]
      exact ih (fun x hx => hl x (by simp [hx])) b m

lemma foldl_labelStep_noMove (hgt : ℚ) :
    ∀ (l : List LBox) (b : LBox),
      (l.foldl (labelStep hgt) (b, false)).2 = false →
      l.foldl (labelStep hgt) (b, false) = (b, false) ∧ ∀ p ∈ l, ¬ overlaps b p := by
  intro l
  induction l with
  | nil => intro b _; exact ⟨rfl, by simp⟩
  | cons p t ih =>
    intro b h
    rw [List.foldl_cons] at h ⊢
    by_cases hov : overlaps b p
    · exfalso
      have hflag : (labelStep hgt (b, false) p).2 = true := by
        unfold labelStep
        rw [if_pos hov]
      have htrue := foldl_labelStep_flag hgt t _ hflag
      rw [htrue] at h
      exact Bool.noConfusion h
    · have hstep : labelStep hgt (b, false) p = (b, false) := by
        unfold labelStep
        rw [if_neg hov]
      rw [hstep] at h ⊢
      obtain ⟨heq, hall⟩ := ih b h
      refine ⟨heq, ?_⟩
      intro q hq
      rcases List.mem_cons.mp hq with rfl | hqt
      · exact hov
      · exact hall q hqt

lemma foldl_labelStep_of_clean (hgt : ℚ) :
    ∀ (l : List LBox) (b : LBox) (m : Bool),
      (∀ p ∈ l, ¬ overlaps b p) → l.foldl (labelStep hgt) (b, m) = (b, m) := by
  intro l
  induction l with
  | nil => intro b m _; rfl
  | cons p t ih =>
    intro b m hcl
    rw [List.foldl_cons]
    have hstep : labelStep hgt (b, m) p = (b, m) := by
      unfold labelStep
      rw [if_neg (hcl p (by simp))]
    rw [hstep]
    exact ih b m fun q hq => hcl q (by simp [hq])

lemma resolveLoop_clean (placed : List LBox) (hgt : ℚ) :
    ∀ (fuel : ℕ) (b : LBox), pendingCount placed b < fuel →
      ∀ p ∈ placed, ¬ overlaps (resolveLoop placed hgt fuel b) p := by
  intro fuel
  induction fuel with
  | zero => intro b hb; exact absurd hb (Nat.not_lt_zero _)
  | succ k ih =>
    intro b hb
    simp only [resolveLoop]
    by_cases hflag : (passOnce placed hgt b false).2 = true
    · rw [if_pos hflag]
      rcases foldl_labelStep_main hgt placed placed (fun x hx => hx) b false with
        heq | ⟨_, hpend⟩
      · exfalso
        unfold passOnce at hflag
        rw [heq] at hflag
        exact Bool.noConfusion hflag
      · apply ih
        have hble : pendingCount placed b ≤ k := Nat.lt_succ_iff.mp hb
        unfold passOnce
        omega
    · rw [if_neg hflag]
      have hfalse : (passOnce placed hgt b false).2 = false := by
        cases hq : (passOnce placed hgt b false).2
        · rfl
        · exact absurd hq hflag
      obtain ⟨heq, hclean⟩ := foldl_labelStep_noMove hgt placed b
        (by unfold passOnce at hfalse; exact hfalse)
      unfold passOnce
      rw [heq]
      exact hclean

/-- The inputs of one label of the per-frame label pass: the point's pixel
position and the measured box dimensions (`boxWidth` from
`ctx.measureText` plus padding, `boxHeight` from the line count) — text
metrics are browser-supplied, so they are inputs here. -/
structure LabelIn where
  x : ℚ
  y : ℚ
  w : ℚ
  h : ℚ
deriving DecidableEq

/-- The candidate box before collision resolution:
`top = p.y + baseOffset`, centered horizontally on `p.x`,
`bottom = top + boxHeight`. -/
def initialBox (li : LabelIn) : LBox :=
  { left := li.x - li.w / 2
    right := li.x + li.w / 2
    top := li.y + labelBaseOffset
    bottom := li.y + labelBaseOffset + li.h }

/-- One point's worth of the label pass: resolve the candidate against the
already placed boxes (the while-loop, with its proven-sufficient fuel) and
push the result (`placedLabels.push(box)`). -/
def placeStep (placed : List LBox) (li : LabelIn) : List LBox :=
  placed ++ [resolveLoop placed li.h (placed.length + 1) (initialBox li)]

/-- The whole per-frame label pass over the points in sequence order. -/
def placeLabels (ls : List LabelIn) : List LBox :=
  ls.foldl placeStep []

lemma pendingCount_lt_succ_length (placed : List LBox) (b : LBox) :
    pendingCount placed b < placed.length + 1 :=
  Nat.lt_succ_of_le (List.countP_le_length _)

lemma placeStep_pairwise {placed : List LBox}
    (h : placed.Pairwise (fun a b => ¬ overlaps b a)) (li : LabelIn) :
    (placeStep placed li).Pairwise (fun a b => ¬ overlaps b a) := by
  unfold placeStep
  rw [List.pairwise_append]
  refine ⟨h, by simp, ?_⟩
  intro a ha b hb
  rw [List.mem_singleton] at hb
  subst hb
  exact resolveLoop_clean placed li.h (placed.length + 1) (initialBox li)
    (pendingCount_lt_succ_length placed (initialBox li)) a ha

lemma placeLabels_aux :
    ∀ (ls : List LabelIn) (acc : List LBox),
      acc.Pairwise (fun a b => ¬ overlaps b a) →
      (ls.foldl placeStep acc).length = acc.length + ls.length ∧
      (ls.foldl placeStep acc).Pairwise (fun a b => ¬ overlaps b a) := by
  intro ls
  induction ls with
  | nil => intro acc h; exact ⟨by simp, h⟩
  | cons li t ih =>
    intro acc h
    rw [List.foldl_cons]
    obtain ⟨hlen, hpw⟩ := ih (placeStep acc li) (placeStep_pairwise h li)
    refine ⟨?_, hpw⟩
    rw [hlen]
    unfold placeStep
    simp
    omega

/-- C2.  The label pass places one box per point, in point order, and
after collision resolution no placed box overlaps any box placed before
it (hence no residual overlap remains, also when three or more labels
mutually collide). -/
theorem labels_no_residual_overlap (ls : List LabelIn) :
    (placeLabels ls).length = ls.length ∧
    (placeLabels ls).Pairwise (fun a b => ¬ overlaps b a) := by
  have h := placeLabels_aux ls [] (by simp)
  unfold placeLabels
  simpa using h

/-- C10.  The collision-resolution while-loop terminates: every relocation
strictly raises the candidate's top (an overlap with a placed box forces
the current top strictly below that box's bottom-plus-spacing target), and
within `|placed| + 1` sweeps the loop reaches a state in which a full
sweep relocates nothing (`moved` stays false), leaving a box that overlaps
no placed box. -/
theorem label_while_loop_terminates (placed : List LBox) (hgt : ℚ) (b : LBox)
    (hh : 0 ≤ hgt) :
    (∀ c p : LBox, p ∈ placed → overlaps c p → c.top < p.bottom + labelSpacing) ∧
    passOnce placed hgt (resolveLoop placed hgt (placed.length + 1) b) false =
      (resolveLoop placed hgt (placed.length + 1) b, false) ∧
    (∀ p ∈ placed, ¬ overlaps (resolveLoop placed hgt (placed.length + 1) b) p) := by
  have hclean : ∀ p ∈ placed,
      ¬ overlaps (resolveLoop placed hgt (placed.length + 1) b) p :=
    resolveLoop_clean placed hgt (placed.length + 1) b
      (pendingCount_lt_succ_length placed b)
  refine ⟨?_, ?_, hclean⟩
  · intro c p _ hov
    have := overlaps_top_lt hov
    unfold labelSpacing
    linarith
  · unfold passOnce
    exact foldl_labelStep_of_clean hgt placed _ false hclean

/-- Witness for C10 at a concrete colliding pair of boxes. -/
theorem label_while_loop_terminates_witness :
    ((0 : ℚ) ≤ 50) ∧
    ((∀ c p : LBox, p ∈ [LBox.mk 0 100 0 50] → overlaps c p →
        c.top < p.bottom + labelSpacing) ∧
      passOnce [LBox.mk 0 100 0 50] 50
          (resolveLoop [LBox.mk 0 100 0 50] 50
            ([LBox.mk 0 100 0 50].length + 1) (LBox.mk 10 60 20 70)) false =
        (resolveLoop [LBox.mk 0 100 0 50] 50
          ([LBox.mk 0 100 0 50].length + 1) (LBox.mk 10 60 20 70), false) ∧
      (∀ p ∈ [LBox.mk 0 100 0 50],
        ¬ overlaps (resolveLoop [LBox.mk 0 100 0 50] 50
          ([LBox.mk 0 100 0 50].length + 1) (LBox.mk 10 60 20 70)) p)) :=
  ⟨by decide,
    label_while_loop_terminates [LBox.mk 0 100 0 50] 50 (LBox.mk 10 60 20 70)
      (by decide)⟩

-- ---------------------------------------------------------------------------
-- path length and the moving-marker walk (C1)
-- ---------------------------------------------------------------------------

/-- One segment's Euclidean length, as in `recordAnimation`:
`Math.sqrt(dx * dx + dy * dy)`. -/
noncomputable def segLen (p q : CalcPoint) : ℝ :=
  Real.sqrt (((q.x : ℝ) - (p.x : ℝ)) * ((q.x : ℝ) - (p.x : ℝ)) +
    ((q.y : ℝ) - (p.y : ℝ)) * ((q.y : ℝ) - (p.y : ℝ)))

/-- The `segments` array: consecutive pairwise lengths. -/
noncomputable def segments (cps : List CalcPoint) : List ℝ :=
  List.zipWith segLen cps cps.tail

/-- The running `totalLength` accumulator of the same loop. -/
noncomputable def totalLength (cps : List CalcPoint) : ℝ :=
  (segments cps).foldl (fun a b => a + b) 0

/-- The moving-marker walk of `animate`: starting at the current point,
consume segments while the remaining distance allows (`remain >= seg`
advances to the segment's end), otherwise interpolate within the current
segment at ratio `remain / seg`; a non-positive remainder stops at the
current point. -/
noncomputable def planeWalk : CalcPoint → List CalcPoint → ℝ → ℝ × ℝ
  | cur, [], _ => ((cur.x : ℝ), (cur.y : ℝ))
  | cur, next :: rest, remain =>
    if remain ≤ 0 then ((cur.x : ℝ), (cur.y : ℝ))
    else if segLen cur next ≤ remain then
      planeWalk next rest (remain - segLen cur next)
    else
      ((cur.x : ℝ) + ((next.x : ℝ) - (cur.x : ℝ)) * (remain / segLen cur next),
        (cur.y : ℝ) + ((next.y : ℝ) - (cur.y : ℝ)) * (remain / segLen cur next))

/-- The marker position at a given progress: the walk starts at
`calculatedPoints[0]` with `remain = totalLength * progress`.  (The source
would fault on an empty array; the `[]` case is unreachable under the
length ≥ 2 precondition.) -/
noncomputable def planePos (cps : List CalcPoint) (progress : ℝ) : ℝ × ℝ :=
  match cps with
  | [] => (0, 0)
  | c :: rest => planeWalk c rest (totalLength (c :: rest) * progress)

lemma segments_cons₂ (a b : CalcPoint) (l : List CalcPoint) :
    segments (a :: b :: l) = segLen a b :: segments (b :: l) := rfl

lemma foldl_add_eq_sum : ∀ (l : List ℝ) (a : ℝ),
    l.foldl (fun x y => x + y) a = a + l.sum := by
  intro l
  induction l with
  | nil => intro a; simp
  | cons b t ih =>
    intro a
    rw [List.foldl_cons, ih, List.sum_cons]
    ring

lemma totalLength_eq_sum (cps : List CalcPoint) :
    totalLength cps = (segments cps).sum := by
  unfold totalLength
  rw [foldl_add_eq_sum]
  ring

lemma segLen_nonneg (p q : CalcPoint) : 0 ≤ segLen p q := Real.sqrt_nonneg _

lemma segments_sum_nonneg : ∀ (cps : List CalcPoint), 0 ≤ (segments cps).sum := by
  intro cps
  induction cps with
  | nil => simp [segments]
  | cons a t ih =>
    cases t with
    | nil => simp [segments]
    | cons b t' =>
      rw [segments_cons₂, List.sum_cons]
      exact add_nonneg (segLen_nonneg a b) ih

lemma segLen_eq_zero_coords {p q : CalcPoint} (h : segLen p q = 0) :
    p.x = q.x ∧ p.y = q.y := by
  unfold segLen at h
  have hx2 : (0 : ℝ) ≤ ((q.x : ℝ) - (p.x : ℝ)) * ((q.x : ℝ) - (p.x : ℝ)) :=
    mul_self_nonneg _
  have hy2 : (0 : ℝ) ≤ ((q.y : ℝ) - (p.y : ℝ)) * ((q.y : ℝ) - (p.y : ℝ)) :=
    mul_self_nonneg _
  have hzero : ((q.x : ℝ) - (p.x : ℝ)) * ((q.x : ℝ) - (p.x : ℝ)) +
      ((q.y : ℝ) - (p.y : ℝ)) * ((q.y : ℝ) - (p.y : ℝ)) = 0 := by
    have hle := Real.sqrt_eq_zero'.mp h
    linarith
  obtain ⟨hx, hy⟩ := (add_eq_zero_iff_of_nonneg hx2 hy2).mp hzero
  have hx' : (q.x : ℝ) = (p.x : ℝ) := by
    have := mul_self_eq_zero.mp hx
    linarith
  have hy' : (q.y : ℝ) = (p.y : ℝ) := by
    have := mul_self_eq_zero.mp hy
    linarith
  exact ⟨(Rat.cast_injective hx').symm, (Rat.cast_injective hy').symm⟩

lemma segments_sum_zero_last :
    ∀ (rest : List CalcPoint) (c : CalcPoint),
      (segments (c :: rest)).sum = 0 →
      c.x = ((c :: rest).getLastD (CalcPoint.mk 0 0 0)).x ∧
      c.y = ((c :: rest).getLastD (CalcPoint.mk 0 0 0)).y := by
  intro rest
  induction rest with
  | nil => intro c _; exact ⟨rfl, rfl⟩
  | cons b t ih =>
    intro c h
    rw [segments_cons₂, List.sum_cons] at h
    have hseg0 : segLen c b = 0 := by
      have h1 := segLen_nonneg c b
      have h2 := segments_sum_nonneg (b :: t)
      linarith
    have hsum0 : (segments (b :: t)).sum = 0 := by
      have h1 := segLen_nonneg c b
      have h2 := segments_sum_nonneg (b :: t)
      linarith
    obtain ⟨hx, hy⟩ := segLen_eq_zero_coords hseg0
    obtain ⟨hx', hy'⟩ := ih b hsum0
    rw [List.getLastD_cons, List.getLastD_cons]
    rw [List.getLastD_cons] at hx' hy'
    exact ⟨hx.trans hx', hy.trans hy'⟩

lemma planeWalk_full :
    ∀ (rest : List CalcPoint) (c : CalcPoint),
      planeWalk c rest ((segments (c :: rest)).sum) =
        ((((c :: rest).getLastD (CalcPoint.mk 0 0 0)).x : ℝ),
          (((c :: rest).getLastD (CalcPoint.mk 0 0 0)).y : ℝ)) := by
  intro rest
  induction rest with
  | nil => intro c; simp [planeWalk, segments, List.getLastD_cons]
  | cons b t ih =>
    intro c
    rw [segments_cons₂, List.sum_cons]
    simp only [planeWalk]
    by_cases hle : segLen c b + (segments (b :: t)).sum ≤ 0
    · rw [if_pos hle]
      have hzero : (segments (c :: b :: t)).sum = 0 := by
        rw [segments_cons₂, List.sum_cons]
        have h1 := segLen_nonneg c b
        have h2 := segments_sum_nonneg (b :: t)
        linarith
      obtain ⟨hx, hy⟩ := segments_sum_zero_last (b :: t) c hzero
      rw [hx, hy]
    · rw [if_neg hle]
      have hs' : 0 ≤ (segments (b :: t)).sum := segments_sum_nonneg (b :: t)
      have hseg : segLen c b ≤ segLen c b + (segments (b :: t)).sum := by linarith
      rw [if_pos hseg]
      have hrem : segLen c b + (segments (b :: t)).sum - segLen c b =
          (segments (b :: t)).sum := by ring
      rw [hrem, ih b]
      rw [List.getLastD_cons, List.getLastD_cons, List.getLastD_cons]

lemma list_getD_succ_cons (a : CalcPoint) (l : List CalcPoint) (i : ℕ) :
    (a :: l).getD (i + 1) (CalcPoint.mk 0 0 0) = l.getD i (CalcPoint.mk 0 0 0) := by
  simp [List.getD]

lemma totalLength_eq_dist_sum : ∀ (cps : List CalcPoint),
    totalLength cps =
      ∑ i in Finset.range (cps.length - 1),
        segLen (cps.getD i (CalcPoint.mk 0 0 0))
          (cps.getD (i + 1) (CalcPoint.mk 0 0 0)) := by
  intro cps
  rw [totalLength_eq_sum]
  induction cps with
  | nil => simp [segments]
  | cons a t ih =>
    cases t with
    | nil => simp [segments]
    | cons b t' =>
      rw [segments_cons₂, List.sum_cons, ih]
      have hlen : (a :: b :: t').length - 1 = ((b :: t').length - 1) + 1 := by
        simp
      rw [hlen, Finset.sum_range_succ']
      have hshift : ∀ i : ℕ,
          segLen ((a :: b :: t').getD (i + 1) (CalcPoint.mk 0 0 0))
            ((a :: b :: t').getD (i + 1 + 1) (CalcPoint.mk 0 0 0)) =
          segLen ((b :: t').getD i (CalcPoint.mk 0 0 0))
            ((b :: t').getD (i + 1) (CalcPoint.mk 0 0 0)) := by
        intro i
        rw [list_getD_succ_cons, list_getD_succ_cons]
      rw [Finset.sum_congr rfl fun i _ => hshift i]
      simp [add_comm]

/-- C1.  For a point sequence of length ≥ 2 with strictly increasing
times, the `totalLength` accumulated by `recordAnimation` equals the sum
of the Euclidean distances between consecutive laid-out pixel
coordinates, and the moving-marker walk at `progress = 1` lands exactly on
the last laid-out point's `(x, y)`. -/
theorem totalLength_and_marker_at_full_progress (g : ChartGeom) (pts : List Pt)
    (h2 : 2 ≤ pts.length)
    (hinc : (pts.map timeMinutes).Chain' (· < ·)) :
    totalLength (calculatedPoints g pts) =
      ∑ i in Finset.range ((calculatedPoints g pts).length - 1),
        segLen ((calculatedPoints g pts).getD i (CalcPoint.mk 0 0 0))
          ((calculatedPoints g pts).getD (i + 1) (CalcPoint.mk 0 0 0)) ∧
    planePos (calculatedPoints g pts) 1 =
      ((((calculatedPoints g pts).getLastD (CalcPoint.mk 0 0 0)).x : ℝ),
        (((calculatedPoints g pts).getLastD (CalcPoint.mk 0 0 0)).y : ℝ)) := by
  refine ⟨totalLength_eq_dist_sum _, ?_⟩
  have hlen : (calculatedPoints g pts).length = pts.length := by
    unfold calculatedPoints
    simp
  have hne : calculatedPoints g pts ≠ [] := by
    intro hc
    rw [hc] at hlen
    simp at hlen
    omega
  obtain ⟨c, rest, heq⟩ := List.exists_cons_of_ne_nil hne
  rw [heq]
  simp only [planePos, mul_one]
  rw [totalLength_eq_sum]
  exact planeWalk_full rest c

/-- Witness for C1 at a concrete two-point path. -/
theorem totalLength_and_marker_at_full_progress_witness :
    (2 ≤ ([Pt.mk 10 9 0, Pt.mk 15 9 5] : List Pt).length ∧
      (([Pt.mk 10 9 0, Pt.mk 15 9 5] : List Pt).map timeMinutes).Chain' (· < ·)) ∧
    (totalLength (calculatedPoints (ChartGeom.mk 0 0 100 100)
        [Pt.mk 10 9 0, Pt.mk 15 9 5]) =
      ∑ i in Finset.range ((calculatedPoints (ChartGeom.mk 0 0 100 100)
          [Pt.mk 10 9 0, Pt.mk 15 9 5]).length - 1),
        segLen ((calculatedPoints (ChartGeom.mk 0 0 100 100)
            [Pt.mk 10 9 0, Pt.mk 15 9 5]).getD i (CalcPoint.mk 0 0 0))
          ((calculatedPoints (ChartGeom.mk 0 0 100 100)
            [Pt.mk 10 9 0, Pt.mk 15 9 5]).getD (i + 1) (CalcPoint.mk 0 0 0)) ∧
    planePos (calculatedPoints (ChartGeom.mk 0 0 100 100)
        [Pt.mk 10 9 0, Pt.mk 15 9 5]) 1 =
      ((((calculatedPoints (ChartGeom.mk 0 0 100 100)
          [Pt.mk 10 9 0, Pt.mk 15 9 5]).getLastD (CalcPoint.mk 0 0 0)).x : ℝ),
        (((calculatedPoints (ChartGeom.mk 0 0 100 100)
          [Pt.mk 10 9 0, Pt.mk 15 9 5]).getLastD (CalcPoint.mk 0 0 0)).y : ℝ))) :=
  ⟨⟨by decide,
      by norm_num [List.chain'_cons, List.chain'_singleton, timeMinutes]⟩,
    totalLength_and_marker_at_full_progress (ChartGeom.mk 0 0 100 100)
      [Pt.mk 10 9 0, Pt.mk 15 9 5] (by decide)
      (by norm_num [List.chain'_cons, List.chain'_singleton, timeMinutes])⟩
